import Mathlib

/-!
Shallow embedding of the triangulator repository (src/TP/src/triangulator):
the Bowyer–Watson style triangulation of algo.py and the binary codec of
binary.py, together with theorems settling the spec claims.

Python floating-point values are modelled exactly: every finite double is a
dyadic rational, and on all concrete inputs certified here every arithmetic
operation performed by the source is exact in IEEE binary64, so exact
rational arithmetic coincides with the source's float arithmetic.  Rationals
are represented by the explicit fraction type `Frac` (integer numerator,
positive integer denominator, not necessarily reduced) so that every
operation kernel-reduces.
-/

set_option maxRecDepth 100000

namespace Triangulator

/-- Exact rational number: numerator over positive denominator (not reduced). -/
structure Frac where
  num : Int
  den : Int
deriving DecidableEq, Repr

namespace Frac

/-- Embed an integer. -/
def ofInt (n : Int) : Frac := ⟨n, 1⟩

instance : OfNat Frac n := ⟨ofInt n⟩

/-- Addition of fractions. -/
protected def add (a b : Frac) : Frac := ⟨a.num * b.den + b.num * a.den, a.den * b.den⟩

/-- Multiplication of fractions. -/
protected def mul (a b : Frac) : Frac := ⟨a.num * b.num, a.den * b.den⟩

/-- Negation. -/
protected def neg (a : Frac) : Frac := ⟨-a.num, a.den⟩

/-- Subtraction. -/
protected def sub (a b : Frac) : Frac := ⟨a.num * b.den - b.num * a.den, a.den * b.den⟩

instance : Add Frac := ⟨Frac.add⟩
instance : Mul Frac := ⟨Frac.mul⟩
instance : Neg Frac := ⟨Frac.neg⟩
instance : Sub Frac := ⟨Frac.sub⟩

/-- Absolute value. -/
def abs (a : Frac) : Frac := ⟨|a.num|, a.den⟩

/-- Strict order on fractions (denominators are positive by construction). -/
protected def lt (a b : Frac) : Prop := a.num * b.den < b.num * a.den

/-- Non-strict order on fractions. -/
protected def le (a b : Frac) : Prop := a.num * b.den ≤ b.num * a.den

instance : LT Frac := ⟨Frac.lt⟩
instance : LE Frac := ⟨Frac.le⟩

instance (a b : Frac) : Decidable (a < b) :=
  inferInstanceAs (Decidable (a.num * b.den < b.num * a.den))

instance (a b : Frac) : Decidable (a ≤ b) :=
  inferInstanceAs (Decidable (a.num * b.den ≤ b.num * a.den))

/-- Value equality (the representation is not reduced, so this is not `Eq`). -/
def veq (a b : Frac) : Prop := a.num * b.den = b.num * a.den

instance (a b : Frac) : Decidable (a.veq b) :=
  inferInstanceAs (Decidable (a.num * b.den = b.num * a.den))

/-- Minimum, returning one of the two arguments like Python's `min`. -/
protected def min (a b : Frac) : Frac := if a ≤ b then a else b

/-- Maximum, returning one of the two arguments like Python's `max`. -/
protected def max (a b : Frac) : Frac := if a ≤ b then b else a

/-- Interpretation into Mathlib's rationals. -/
def toRat (a : Frac) : ℚ := (a.num : ℚ) / (a.den : ℚ)

end Frac

/-- A 2D point with exact-rational coordinates. -/
abbrev Pt := Frac × Frac

/-- A triangle as a triple of point indices. -/
abbrev Tri := Nat × Nat × Nat

/-- The default epsilon 1e-9 of algo.py (exact decimal value). -/
def epsDefault : Frac := ⟨1, 1000000000⟩

/-- Twice the signed area of triangle a-b-c (mirrors `_area2`). -/
def area2 (a b c : Pt) : Frac :=
  (b.1 - a.1) * (c.2 - a.2) - (b.2 - a.2) * (c.1 - a.1)

/-- True if all points are (almost) on one line (mirrors `_is_collinear`). -/
def isCollinear (points : List Pt) (eps : Frac) : Bool :=
  match points with
  | a :: b :: rest =>
      if points.length < 3 then true
      else rest.all fun c => (area2 a b c).abs ≤ eps
  | _ => true

/-- True if p is strictly inside the circumcircle of CCW triangle a-b-c
(mirrors `_in_circumcircle`, including the translation by p). -/
def inCircumcircle (p a b c : Pt) : Bool :=
  let ax := a.1 - p.1
  let ay := a.2 - p.2
  let bx := b.1 - p.1
  let bY := b.2 - p.2
  let cx := c.1 - p.1
  let cy := c.2 - p.2
  let a2 := ax * ax + ay * ay
  let b2 := bx * bx + bY * bY
  let c2 := cx * cx + cy * cy
  let det := a2 * (bx * cy - cx * bY) - b2 * (ax * cy - cx * ay) + c2 * (ax * bY - bx * ay)
  (0 : Frac) < det

/-- The enclosing super-triangle (mirrors `_build_super_triangle`).
Only called with a nonempty list; the empty case is unreachable. -/
def buildSuperTriangle (points : List Pt) : Pt × Pt × Pt :=
  match points with
  | [] => ((0, 0), (0, 0), (0, 0))
  | p :: ps =>
      let xs := (p :: ps).map Prod.fst
      let ys := (p :: ps).map Prod.snd
      let min_x := xs.foldl Frac.min p.1
      let max_x := xs.foldl Frac.max p.1
      let min_y := ys.foldl Frac.min p.2
      let max_y := ys.foldl Frac.max p.2
      let dx := max_x - min_x
      let dy := max_y - min_y
      let dmax0 := dx.max dy
      let dmax := if dmax0.veq 0 then Frac.ofInt 1 else dmax0
      let half : Frac := ⟨1, 2⟩
      let mid_x := (min_x + max_x) * half
      let mid_y := (min_y + max_y) * half
      let scale := Frac.ofInt 20 * dmax
      ((mid_x - scale, mid_y - dmax), (mid_x, mid_y + scale), (mid_x + scale, mid_y - dmax))

/-- The list of bad triangles at one insertion step: triangles whose
circumcircle contains point `pi`, normalized to CCW orientation and skipping
near-degenerate triangles (mirrors the first loop of the insertion step). -/
def badTriangles (pts : List Pt) (eps : Frac) (triangles : List Tri) (pi : Nat) : List Tri :=
  let p := pts.getD pi (0, 0)
  triangles.filterMap fun t =>
    let a := pts.getD t.1 (0, 0)
    let b := pts.getD t.2.1 (0, 0)
    let c := pts.getD t.2.2 (0, 0)
    let ar := area2 a b c
    if ar.abs < eps then none
    else
      let s : Nat × Nat × Pt × Pt := if ar < 0 then (t.2.2, t.2.1, c, b) else (t.2.1, t.2.2, b, c)
      if inCircumcircle p a s.2.2.1 s.2.2.2 then some (t.1, s.1, s.2.1) else none

/-- One `add_edge` call: remove the reversed edge if present, else remove the
edge if present, else append it (mirrors `add_edge` exactly, including that
Python's `list.remove` deletes the first occurrence). -/
def addEdge (polygon : List (Nat × Nat)) (e : Nat × Nat) : List (Nat × Nat) :=
  let rev := (e.2, e.1)
  if rev ∈ polygon then polygon.erase rev
  else if e ∈ polygon then polygon.erase e
  else polygon ++ [e]

/-- The three directed edges of a triangle, in the order the source emits them. -/
def triEdges (t : Tri) : List (Nat × Nat) := [(t.1, t.2.1), (t.2.1, t.2.2), (t.2.2, t.1)]

/-- The hole boundary as computed by the source: fold `add_edge` over every
edge of every bad triangle, in order. -/
def computeBoundary (bad : List Tri) : List (Nat × Nat) :=
  (bad.flatMap triEdges).foldl addEdge []

/-- One insertion step of the Bowyer–Watson loop (body of `for pi in range(n)`). -/
def insertStep (pts : List Pt) (eps : Frac) (triangles : List Tri) (pi : Nat) : List Tri :=
  let bad := badTriangles pts eps triangles pi
  let polygon := computeBoundary bad
  let removed := bad.foldl (fun ts t => ts.erase t) triangles
  removed ++ polygon.map fun e => (e.1, e.2, pi)

/-- The full triangulation (mirrors `delaunay_triangulation`). -/
def delaunay_triangulation (points : List Pt) (eps : Frac) : List Tri :=
  let n := points.length
  if n < 3 then []
  else if isCollinear points eps then []
  else
    let st := buildSuperTriangle points
    let pts := points ++ [st.1, st.2.1, st.2.2]
    let seed : List Tri := [(n, n + 1, n + 2)]
    let final := (List.range n).foldl (fun tris pi => insertStep pts eps tris pi) seed
    final.filter fun t =>
      if t.1 ≥ n ∨ t.2.1 ≥ n ∨ t.2.2 ≥ n then false
      else
        let a := pts.getD t.1 (0, 0)
        let b := pts.getD t.2.1 (0, 0)
        let c := pts.getD t.2.2 (0, 0)
        decide (¬((area2 a b c).abs ≤ eps))

/-! ### Binary codec (binary.py)

Bytes are `Fin 256`.  Python floats are modelled by `PyFloat`: an exact
rational magnitude or a special value.  Narrowing to binary32 is modelled
exactly (round to nearest, ties to even), and finite binary32 values are
produced in canonical dyadic form (odd numerator whenever the denominator
exceeds one) so that representable values round-trip to themselves. -/

/-- A byte. -/
abbrev Byte := Fin 256

/-- Little-endian 4-byte encoding of an unsigned 32-bit value. -/
def packU32 (n : Nat) : List Byte :=
  [⟨n % 256, by omega⟩, ⟨n / 256 % 256, by omega⟩,
   ⟨n / 65536 % 256, by omega⟩, ⟨n / 16777216 % 256, by omega⟩]

/-- Little-endian u32 read of the first four bytes. -/
def unpackU32 : List Byte → Nat
  | b0 :: b1 :: b2 :: b3 :: _ => b0.val + 256 * b1.val + 65536 * b2.val + 16777216 * b3.val
  | _ => 0

/-- A Python float value: a finite (exact rational) value, an infinity, or NaN. -/
inductive PyFloat where
  | finite (q : Frac)
  | inf
  | neginf
  | nan
deriving DecidableEq, Repr

/-- True on finite values (the complement of the `isnan or isinf` test). -/
def PyFloat.isFinite : PyFloat → Bool
  | .finite _ => true
  | _ => false

/-- An IEEE binary32 bit pattern: sign, biased exponent, fraction field. -/
structure F32 where
  sign : Bool
  ex : Nat
  frac : Nat
deriving DecidableEq, Repr

/-- Strip factors of two: odd part and 2-adic valuation (structural fuel recursion;
callers pass the number itself as fuel, which always suffices). -/
def oddPart : Nat → Nat → Nat × Nat
  | 0, n => (n, 0)
  | fuel + 1, n =>
      if n % 2 = 0 ∧ n ≠ 0 then
        let r := oddPart fuel (n / 2)
        (r.1, r.2 + 1)
      else (n, 0)

/-- The canonical fraction (-1)^neg * s * 2 ^ p. -/
def dyadic (neg : Bool) (s : Nat) (p : Int) : Frac :=
  if s = 0 then ⟨0, 1⟩
  else
    let o := oddPart s s
    let e := p + o.2
    let mag : Frac := if 0 ≤ e then ⟨o.1 * 2 ^ e.toNat, 1⟩ else ⟨o.1, 2 ^ (-e).toNat⟩
    if neg then ⟨-mag.num, mag.den⟩ else mag

/-- The value of an F32 bit pattern. -/
def F32.val (f : F32) : PyFloat :=
  if f.ex = 255 then
    if f.frac = 0 then (if f.sign then .neginf else .inf) else .nan
  else if f.ex = 0 then .finite (dyadic f.sign f.frac (-149))
  else .finite (dyadic f.sign (2 ^ 23 + f.frac) ((f.ex : Int) - 150))

/-- Floor of a fraction (denominators are positive by construction). -/
def Frac.floor (a : Frac) : Int := a.num.fdiv a.den

/-- Round to the nearest integer, ties to even. -/
def roundHalfEven (x : Frac) : Int :=
  let n := x.floor
  let r := x - Frac.ofInt n
  let half : Frac := ⟨1, 2⟩
  if r < half then n
  else if half < r then n + 1
  else if n % 2 = 0 then n else n + 1

/-- Floor of log2 on naturals (structural fuel recursion; callers pass the
number itself as fuel, which always suffices). -/
def log2fuel : Nat → Nat → Nat
  | 0, _ => 0
  | fuel + 1, n => if n ≤ 1 then 0 else log2fuel fuel (n / 2) + 1

/-- The power 2 ^ e as a fraction. -/
def pow2 (e : Int) : Frac := if 0 ≤ e then ⟨2 ^ e.toNat, 1⟩ else ⟨1, 2 ^ (-e).toNat⟩

/-- The integer e with 2 ^ e ≤ a < 2 ^ (e + 1), for positive a. -/
def Frac.ilog2 (a : Frac) : Int :=
  let na := a.num.natAbs
  let d := a.den.natAbs
  let e0 : Int := (log2fuel na na : Int) - (log2fuel d d : Int)
  if a < pow2 e0 then e0 - 1 else e0

/-- Round a positive magnitude to binary32 (round to nearest, ties to even);
none means overflow beyond the largest finite binary32 value. -/
def toF32mag (sign : Bool) (m : Frac) : Option F32 :=
  let e := m.ilog2
  if 127 < e then none
  else if e < -126 then
    let sig := (roundHalfEven (m * pow2 149)).toNat
    if sig < 2 ^ 23 then some ⟨sign, 0, sig⟩
    else some ⟨sign, 1, 0⟩
  else
    let sig := (roundHalfEven (m * pow2 (23 - e))).toNat
    if sig < 2 ^ 24 then some ⟨sign, (e + 127).toNat, sig - 2 ^ 23⟩
    else if e = 127 then none
    else some ⟨sign, (e + 128).toNat, 0⟩

instance {ε α} [DecidableEq ε] [DecidableEq α] : DecidableEq (Except ε α) := fun x y =>
  match x, y with
  | .ok a, .ok b => if h : a = b then isTrue (by rw [h]) else isFalse (by simp [h])
  | .error e, .error f => if h : e = f then isTrue (by rw [h]) else isFalse (by simp [h])
  | .ok _, .error _ => isFalse (by simp)
  | .error _, .ok _ => isFalse (by simp)

/-- Error conditions raised by the codec. -/
inductive PyErr where
  | invalidValue
  | codecError
  | overflowError
  | structError
deriving DecidableEq, Repr

/-- The 32-bit pattern of an F32 as a little-endian 4-byte list. -/
def f32bytes (f : F32) : List Byte :=
  packU32 ((if f.sign then 2 ^ 31 else 0) + f.ex * 2 ^ 23 + f.frac)

/-- struct.pack of one coordinate with format f: narrow to binary32; packing a
finite double beyond the binary32 range raises OverflowError. -/
def packF32 (x : PyFloat) : Except PyErr (List Byte) :=
  match x with
  | .finite q =>
      if q.veq 0 then .ok (f32bytes ⟨false, 0, 0⟩)
      else
        match toF32mag (decide (q < 0)) q.abs with
        | some f => .ok (f32bytes f)
        | none => .error .overflowError
  | .inf => .ok (f32bytes ⟨false, 255, 0⟩)
  | .neginf => .ok (f32bytes ⟨true, 255, 0⟩)
  | .nan => .ok (f32bytes ⟨false, 255, 2 ^ 22⟩)

/-- struct.unpack of one binary32 coordinate. -/
def unpackF32 (bs : List Byte) : PyFloat :=
  let v := unpackU32 bs
  F32.val ⟨decide (2 ^ 31 ≤ v), v / 2 ^ 23 % 256, v % 2 ^ 23⟩

/-- The value obtained by narrowing a Python float to binary32. -/
def narrow32 (x : PyFloat) : PyFloat :=
  match x with
  | .finite q =>
      if q.veq 0 then .finite ⟨0, 1⟩
      else
        match toF32mag (decide (q < 0)) q.abs with
        | some f => f.val
        | none => if q < 0 then .neginf else .inf
  | y => y

/-- A point as the codec sees it. -/
abbrev PyPoint := PyFloat × PyFloat

/-- Both coordinates narrowed to binary32. -/
def narrowPoint (p : PyPoint) : PyPoint := (narrow32 p.1, narrow32 p.2)

/-- struct.pack of format I: fails (struct.error) unless the value fits a u32. -/
def packCount (n : Nat) : Except PyErr (List Byte) :=
  if n < 2 ^ 32 then .ok (packU32 n) else .error .structError

/-- The point-record packing loop of encode_pointset. -/
def packPoints : List PyPoint → Except PyErr (List Byte)
  | [] => .ok []
  | p :: ps =>
      match packF32 p.1 with
      | .error e => .error e
      | .ok bx =>
          match packF32 p.2 with
          | .error e => .error e
          | .ok bz =>
              match packPoints ps with
              | .error e => .error e
              | .ok rest => .ok (bx ++ bz ++ rest)

/-- encode_pointset from binary.py: NaN/Inf validation, then the count, then
the point records. -/
def encode_pointset (points : List PyPoint) : Except PyErr (List Byte) :=
  if points.any (fun p => !p.1.isFinite || !p.2.isFinite) then .error .invalidValue
  else
    match packCount points.length with
    | .error e => .error e
    | .ok head =>
        match packPoints points with
        | .error e => .error e
        | .ok body => .ok (head ++ body)

/-- The point-record decoding loop of decode_pointset. -/
def decodePoints (bs : List Byte) : Nat → List PyPoint
  | 0 => []
  | k + 1 => (unpackF32 (bs.take 4), unpackF32 ((bs.drop 4).take 4)) :: decodePoints (bs.drop 8) k

/-- decode_pointset from binary.py. -/
def decode_pointset (buf : List Byte) : Except PyErr (List PyPoint) :=
  if buf.length < 4 then .error .codecError
  else
    let n := unpackU32 (buf.take 4)
    if buf.length ≠ 4 + n * 8 then .error .codecError
    else .ok (decodePoints (buf.drop 4) n)

/-- A Python value appearing as a triangle index: an int, or a non-integer. -/
inductive PyNum where
  | int (z : Int)
  | other
deriving DecidableEq, Repr

/-- One index passes the isinstance/range test of encode_triangles. -/
def validIdx (nPoints : Nat) : PyNum → Bool
  | .int z => decide (0 ≤ z) && decide (z < nPoints)
  | .other => false

/-- The validation loop of encode_triangles: per triangle, in order, the length
check first and then the index checks. -/
def validateTris (nPoints : Nat) : List (List PyNum) → Except PyErr Unit
  | [] => .ok ()
  | tri :: rest =>
      if tri.length ≠ 3 then .error .codecError
      else if tri.all (validIdx nPoints) then validateTris nPoints rest
      else .error .invalidValue

/-- Pack one validated triangle's three indices (format III). -/
def packTri (tri : List PyNum) : Except PyErr (List Byte) :=
  match tri with
  | [.int a, .int b, .int c] =>
      match packCount a.toNat, packCount b.toNat, packCount c.toNat with
      | .ok ba, .ok bb, .ok bc => .ok (ba ++ bb ++ bc)
      | .error e, _, _ => .error e
      | .ok _, .error e, _ => .error e
      | .ok _, .ok _, .error e => .error e
  | _ => .error .structError

/-- The triangle-record packing loop of encode_triangles. -/
def packTris : List (List PyNum) → Except PyErr (List Byte)
  | [] => .ok []
  | tri :: rest =>
      match packTri tri with
      | .error e => .error e
      | .ok b =>
          match packTris rest with
          | .error e => .error e
          | .ok bs => .ok (b ++ bs)

/-- encode_triangles from binary.py. -/
def encode_triangles (points : List PyPoint) (tris : List (List PyNum)) :
    Except PyErr (List Byte) :=
  match validateTris points.length tris with
  | .error e => .error e
  | .ok _ =>
      match encode_pointset points with
      | .error e => .error e
      | .ok base =>
          match packCount tris.length with
          | .error e => .error e
          | .ok tcount =>
              match packTris tris with
              | .error e => .error e
              | .ok body => .ok (base ++ tcount ++ body)

/-- The triangle-record decoding loop of decode_triangles. -/
def decodeTris (bs : List Byte) : Nat → List (Nat × Nat × Nat)
  | 0 => []
  | k + 1 =>
      (unpackU32 (bs.take 4), unpackU32 ((bs.drop 4).take 4), unpackU32 ((bs.drop 8).take 4)) ::
        decodeTris (bs.drop 12) k

/-- decode_triangles from binary.py. -/
def decode_triangles (buf : List Byte) :
    Except PyErr (List PyPoint × List (Nat × Nat × Nat)) :=
  if buf.length < 4 then .error .codecError
  else
    let nPoints := unpackU32 (buf.take 4)
    let psize := 4 + nPoints * 8
    if buf.length < psize + 4 then .error .codecError
    else
      match decode_pointset (buf.take psize) with
      | .error e => .error e
      | .ok points =>
          let nTris := unpackU32 ((buf.drop psize).take 4)
          if buf.length ≠ psize + 4 + nTris * 12 then .error .codecError
          else .ok (points, decodeTris (buf.drop (psize + 4)) nTris)

/-! ### The spec's boundary-detection method (for claim C1) -/

/-- Canonical (min, max) form of an edge. -/
def normEdge (e : Nat × Nat) : Nat × Nat := (min e.1 e.2, max e.1 e.2)

/-- Modelled from the spec: the boundary of the union of bad triangles computed
by normalizing every edge of every bad triangle to canonical (min, max) form,
counting occurrences, and keeping exactly the edges whose count is 1. -/
def specBoundary (bad : List Tri) : List (Nat × Nat) :=
  let ne := (bad.flatMap triEdges).map normEdge
  ne.filter fun e => ne.count e = 1

/-! ### Concrete scenarios from the repository's tests -/

/-- Shorthand for an integer-valued coordinate. -/
def fq (n : Int) : Frac := Frac.ofInt n

/-- The three-point scenario of test_three_points_one_triangle. -/
def triPts : List Pt := [(fq 0, fq 0), (fq 1, fq 0), (fq 0, fq 1)]

/-- The square scenario of test_square_four_points. -/
def squarePts : List Pt := [(fq 0, fq 0), (fq 1, fq 0), (fq 1, fq 1), (fq 0, fq 1)]

/-- The convex five-point scenario of test_convex_five_points_n_minus_2. -/
def convex5Pts : List Pt := [(fq 0, fq 0), (fq 2, fq 0), (fq 3, fq 1), (fq 2, fq 2), (fq 0, fq 2)]

/-- The convex five-point scenario extended with its super-triangle vertices,
exactly as `delaunay_triangulation` builds its working point list. -/
def convex5Ext : List Pt :=
  let st := buildSuperTriangle convex5Pts
  convex5Pts ++ [st.1, st.2.1, st.2.2]

/-- The collinear scenario of test_all_collinear_zero_triangle (prefix). -/
def collinearPts : List Pt := [(fq 0, fq 0), (fq 1, fq 0), (fq 2, fq 0)]

/-- The decoded index triple corresponding to an encoder triangle. -/
def triIdx (tri : List PyNum) : Nat × Nat × Nat :=
  match tri with
  | [.int a, .int b, .int c] => (a.toNat, b.toNat, c.toNat)
  | _ => (0, 0, 0)

/-- The point-set block size decode_triangles computes from a buffer's head. -/
def psizeOf (buf : List Byte) : Nat := 4 + unpackU32 (buf.take 4) * 8

/-- The triangle count decode_triangles reads after the point-set block. -/
def tcountOf (buf : List Byte) : Nat := unpackU32 ((buf.drop (psizeOf buf)).take 4)

/-- A buffer with zero points and one triangle whose indices are out of range. -/
def c10buf : List Byte := packU32 0 ++ packU32 1 ++ packU32 7 ++ packU32 8 ++ packU32 9

/-- A buffer with one point and one triangle, all of the expected size. -/
def c10buf2 : List Byte :=
  packU32 1 ++ List.replicate 8 (0 : Byte) ++ packU32 1 ++ packU32 5 ++ packU32 6 ++ packU32 7

/-! ### Helper lemmas -/

theorem Frac.lt_of_not_le {a b : Frac} (h : ¬ a ≤ b) : b < a := by
  show Frac.lt b a
  have h' : ¬ Frac.le a b := h
  unfold Frac.le at h'
  unfold Frac.lt
  omega

theorem decodePoints_length (bs : List Byte) (k : Nat) : (decodePoints bs k).length = k := by
  induction k generalizing bs with
  | zero => rfl
  | succ k ih => simp [decodePoints, ih]

theorem Frac.sub_def (a b : Frac) : a - b = ⟨a.num * b.den - b.num * a.den, a.den * b.den⟩ := rfl

theorem Frac.mul_def (a b : Frac) : a * b = ⟨a.num * b.num, a.den * b.den⟩ := rfl

theorem area2_num_self_left (a c : Pt) : (area2 a a c).num = 0 := by
  simp [area2, Frac.sub_def, Frac.mul_def]

theorem area2_num_self_outer (a b : Pt) : (area2 a b a).num = 0 := by
  simp [area2, Frac.sub_def, Frac.mul_def]

theorem area2_num_self_right (a b : Pt) : (area2 a b b).num = 0 := by
  simp [area2, Frac.sub_def, Frac.mul_def]
  ring

theorem area2_den_pos (a b c : Pt) (h1 : 0 < a.1.den) (h2 : 0 < a.2.den) (h3 : 0 < b.1.den)
    (h4 : 0 < b.2.den) (h5 : 0 < c.1.den) (h6 : 0 < c.2.den) : 0 < (area2 a b c).den := by
  simp [area2, Frac.sub_def, Frac.mul_def]
  positivity

/-- A rational with zero numerator is below the default epsilon in magnitude. -/
theorem abs_le_eps_of_num_zero (z : Frac) (hz : z.num = 0) (hd : 0 < z.den) :
    z.abs ≤ epsDefault := by
  show Frac.le z.abs epsDefault
  unfold Frac.le
  simp [Frac.abs, hz, epsDefault]
  omega

theorem getD_mem_of_lt {l : List Pt} {i : Nat} (h : i < l.length) : l.getD i (0, 0) ∈ l := by
  rw [List.getD_eq_getElem l _ h]
  exact List.getElem_mem h

theorem packU32_length (n : Nat) : (packU32 n).length = 4 := rfl

theorem unpackU32_packU32_append (n : Nat) (h : n < 2 ^ 32) (rest : List Byte) :
    unpackU32 (packU32 n ++ rest) = n := by
  show n % 256 + 256 * (n / 256 % 256) + 65536 * (n / 65536 % 256) +
    16777216 * (n / 16777216 % 256) = n
  omega

theorem unpackU32_packU32 (n : Nat) (h : n < 2 ^ 32) : unpackU32 (packU32 n) = n := by
  show n % 256 + 256 * (n / 256 % 256) + 65536 * (n / 65536 % 256) +
    16777216 * (n / 16777216 % 256) = n
  omega

theorem take_len_append {α} (l1 l2 : List α) (n : Nat) (h : l1.length = n) :
    (l1 ++ l2).take n = l1 := by
  subst h
  exact List.take_left l1 l2

theorem drop_len_append {α} (l1 l2 : List α) (n : Nat) (h : l1.length = n) :
    (l1 ++ l2).drop n = l2 := by
  subst h
  exact List.drop_left l1 l2

theorem toF32mag_valid {s : Bool} {m : Frac} {f : F32} (h : toF32mag s m = some f) :
    f.ex ≤ 254 ∧ f.frac < 2 ^ 23 := by
  simp only [toF32mag] at h
  split at h
  · cases h
  · split at h
    · split at h
      · cases h
        refine ⟨by simp, by simp; omega⟩
      · cases h
        constructor <;> simp
    · split at h
      · cases h
        refine ⟨?_, by simp; omega⟩
        simp
        omega
      · split at h
        · cases h
        · cases h
          refine ⟨?_, by simp⟩
          simp
          omega

theorem unpackF32_f32bytes (f : F32) (hex : f.ex ≤ 255) (hfrac : f.frac < 2 ^ 23) :
    unpackF32 (f32bytes f) = F32.val f := by
  simp only [unpackF32, f32bytes]
  have hlt : (if f.sign then 2 ^ 31 else 0) + f.ex * 2 ^ 23 + f.frac < 2 ^ 32 := by
    by_cases hs : f.sign <;> simp [hs] <;> omega
  simp only [unpackU32_packU32 _ hlt]
  have hsign : decide (2 ^ 31 ≤ (if f.sign then 2 ^ 31 else 0) + f.ex * 2 ^ 23 + f.frac) = f.sign := by
    by_cases hs : f.sign <;> simp [hs] <;> omega
  have hexeq : ((if f.sign then 2 ^ 31 else 0) + f.ex * 2 ^ 23 + f.frac) / 2 ^ 23 % 256 = f.ex := by
    by_cases hs : f.sign <;> simp [hs] <;> omega
  have hfraceq : ((if f.sign then 2 ^ 31 else 0) + f.ex * 2 ^ 23 + f.frac) % 2 ^ 23 = f.frac := by
    by_cases hs : f.sign <;> simp [hs] <;> omega
  rw [hsign, hexeq, hfraceq]

theorem packF32_error {x : PyFloat} {e : PyErr} (h : packF32 x = .error e) :
    e = .overflowError := by
  cases x <;> simp only [packF32] at h
  case finite q =>
    split at h
    · cases h
    · split at h
      · cases h
      · cases h
        rfl
  all_goals cases h

theorem packF32_roundtrip {x : PyFloat} {bs : List Byte} (h : packF32 x = .ok bs) :
    unpackF32 bs = narrow32 x ∧ bs.length = 4 := by
  cases x with
  | finite q =>
      simp only [packF32] at h
      by_cases h0 : q.veq 0
      · rw [if_pos h0] at h
        cases h
        refine ⟨?_, rfl⟩
        simp only [narrow32, if_pos h0]
        decide
      · rw [if_neg h0] at h
        cases hm : toF32mag (decide (q < 0)) q.abs with
        | none => rw [hm] at h; cases h
        | some f =>
            rw [hm] at h
            cases h
            have hv := toF32mag_valid hm
            refine ⟨?_, rfl⟩
            rw [unpackF32_f32bytes f (by omega) hv.2]
            simp only [narrow32, if_neg h0, hm]
  | inf =>
      simp only [packF32] at h
      cases h
      exact ⟨by decide, rfl⟩
  | neginf =>
      simp only [packF32] at h
      cases h
      exact ⟨by decide, rfl⟩
  | nan =>
      simp only [packF32] at h
      cases h
      exact ⟨by decide, rfl⟩

theorem packPoints_spec (P : List PyPoint)
    (h : ∀ p ∈ P, (packF32 p.1).isOk = true ∧ (packF32 p.2).isOk = true) :
    ∃ body, packPoints P = .ok body ∧ body.length = 8 * P.length ∧
      decodePoints body P.length = P.map narrowPoint := by
  induction P with
  | nil => exact ⟨[], rfl, rfl, rfl⟩
  | cons p ps ih =>
      obtain ⟨hp1, hp2⟩ := h p (List.mem_cons_self p ps)
      obtain ⟨body, hb, hlen, hdec⟩ := ih fun q hq => h q (List.mem_cons_of_mem _ hq)
      cases hx : packF32 p.1 with
      | error e =>
          rw [hx] at hp1
          simp [Except.isOk, Except.toBool] at hp1
      | ok bx =>
          cases hy : packF32 p.2 with
          | error e =>
              rw [hy] at hp2
              simp [Except.isOk, Except.toBool] at hp2
          | ok bz =>
              have hrt1 := packF32_roundtrip hx
              have hrt2 := packF32_roundtrip hy
              refine ⟨bx ++ bz ++ body, ?_, ?_, ?_⟩
              · simp only [packPoints, hx, hy, hb]
              · simp only [List.length_append, List.length_cons, hrt1.2, hrt2.2, hlen]
                ring
              · simp only [List.length_cons, decodePoints, List.map_cons]
                rw [List.append_assoc bx bz body,
                  take_len_append bx (bz ++ body) 4 hrt1.2,
                  drop_len_append bx (bz ++ body) 4 hrt1.2,
                  take_len_append bz body 4 hrt2.2]
                have hd8 : (bx ++ (bz ++ body)).drop 8 = body := by
                  rw [← List.append_assoc]
                  exact drop_len_append _ _ _ (by simp [hrt1.2, hrt2.2])
                rw [hd8, hrt1.1, hrt2.1, hdec]
                rfl

theorem packPoints_error {P : List PyPoint} {e : PyErr} (h : packPoints P = .error e) :
    e = .overflowError := by
  induction P with
  | nil => cases h
  | cons p ps ih =>
      simp only [packPoints] at h
      cases hx : packF32 p.1 with
      | error e1 =>
          rw [hx] at h
          cases h
          exact packF32_error hx
      | ok bx =>
          rw [hx] at h
          cases hy : packF32 p.2 with
          | error e2 =>
              rw [hy] at h
              cases h
              exact packF32_error hy
          | ok bz =>
              rw [hy] at h
              cases hr : packPoints ps with
              | error e3 =>
                  rw [hr] at h
                  cases h
                  exact ih hr
              | ok rest =>
                  rw [hr] at h
                  cases h

/-- The structure of a successful encode_pointset run. -/
theorem encode_pointset_spec (P : List PyPoint)
    (hfin : ∀ p ∈ P, p.1.isFinite = true ∧ p.2.isFinite = true)
    (hn : P.length < 2 ^ 32)
    (hpack : ∀ p ∈ P, (packF32 p.1).isOk = true ∧ (packF32 p.2).isOk = true) :
    ∃ body, packPoints P = .ok body ∧ body.length = 8 * P.length ∧
      decodePoints body P.length = P.map narrowPoint ∧
      encode_pointset P = .ok (packU32 P.length ++ body) := by
  obtain ⟨body, hb, hlen, hdec⟩ := packPoints_spec P hpack
  refine ⟨body, hb, hlen, hdec, ?_⟩
  have hany : P.any (fun p => !p.1.isFinite || !p.2.isFinite) = false := by
    rw [List.any_eq_false]
    intro p hp
    simp [(hfin p hp).1, (hfin p hp).2]
  simp only [encode_pointset, hany, Bool.false_eq_true, if_false, packCount, if_pos hn, hb]

/-- Decoding the byte image produced by a successful encode_pointset run. -/
theorem decode_pointset_of_spec (P : List PyPoint) (body : List Byte)
    (hn : P.length < 2 ^ 32) (hlen : body.length = 8 * P.length)
    (hdec : decodePoints body P.length = P.map narrowPoint) :
    decode_pointset (packU32 P.length ++ body) = .ok (P.map narrowPoint) := by
  have hlen2 : (packU32 P.length ++ body).length = 4 + 8 * P.length := by
    simp [hlen, packU32_length]
  have ht : (packU32 P.length ++ body).take 4 = packU32 P.length :=
    take_len_append _ _ _ (packU32_length _)
  simp only [decode_pointset, ht, unpackU32_packU32 _ hn]
  rw [if_neg (by omega : ¬ (packU32 P.length ++ body).length < 4),
    if_neg (by omega : ¬ (packU32 P.length ++ body).length ≠ 4 + P.length * 8),
    drop_len_append _ _ _ (packU32_length _), hdec]

theorem validateTris_ok {n : Nat} {T : List (List PyNum)}
    (h : ∀ tri ∈ T, tri.length = 3 ∧ tri.all (validIdx n) = true) :
    validateTris n T = .ok () := by
  induction T with
  | nil => rfl
  | cons tri rest ih =>
      obtain ⟨h3, hall⟩ := h tri (List.mem_cons_self _ _)
      simp only [validateTris, if_neg (show ¬ tri.length ≠ 3 from fun hh => hh h3), hall,
        if_true]
      exact ih fun t htm => h t (List.mem_cons_of_mem _ htm)

theorem validateTris_find {n : Nat} {T : List (List PyNum)} {tri : List PyNum}
    (h : T.find? (fun t => !(t.length == 3 && t.all (validIdx n))) = some tri) :
    validateTris n T = .error (if tri.length = 3 then .invalidValue else .codecError) := by
  induction T with
  | nil => cases h
  | cons t rest ih =>
      rcases List.find?_cons_eq_some.mp h with ⟨hbad, heq⟩ | ⟨hgoodb, h2⟩
      · subst heq
        simp only [Bool.not_eq_true', Bool.and_eq_false_iff] at hbad
        by_cases h3 : t.length = 3
        · have hallf : t.all (validIdx n) = false := by
            rcases hbad with hb | hb
            · rw [h3] at hb
              exact absurd hb (by decide)
            · exact hb
          simp only [validateTris, if_neg (show ¬ t.length ≠ 3 from fun hh => hh h3), hallf,
            if_pos h3]
          rfl
        · simp only [validateTris, if_pos h3, if_neg h3]
      · have hgood : (t.length == 3 && t.all (validIdx n)) = true := by
          simpa using hgoodb
        rw [Bool.and_eq_true] at hgood
        obtain ⟨h3b, hall⟩ := hgood
        have h3 : t.length = 3 := by simpa using h3b
        simp only [validateTris, if_neg (show ¬ t.length ≠ 3 from fun hh => hh h3), hall,
          if_true]
        exact ih h2

theorem packTri_spec {n : Nat} (hn : n < 2 ^ 32) {tri : List PyNum}
    (h3 : tri.length = 3) (hv : tri.all (validIdx n) = true) :
    ∃ a b c : Int, tri = [.int a, .int b, .int c] ∧
      packTri tri = .ok (packU32 a.toNat ++ packU32 b.toNat ++ packU32 c.toNat) ∧
      a.toNat < n ∧ b.toNat < n ∧ c.toNat < n := by
  match tri, h3 with
  | [x, y, z], _ =>
    simp only [List.all_cons, List.all_nil, Bool.and_eq_true, and_true] at hv
    obtain ⟨hx, hy, hz⟩ := hv
    cases x with
    | other => simp [validIdx] at hx
    | int a =>
        cases y with
        | other => simp [validIdx] at hy
        | int b =>
            cases z with
            | other => simp [validIdx] at hz
            | int c =>
                simp only [validIdx, Bool.and_eq_true, decide_eq_true_eq] at hx hy hz
                refine ⟨a, b, c, rfl, ?_, by omega, by omega, by omega⟩
                simp only [packTri, packCount,
                  if_pos (show a.toNat < 2 ^ 32 by omega),
                  if_pos (show b.toNat < 2 ^ 32 by omega),
                  if_pos (show c.toNat < 2 ^ 32 by omega)]

theorem packTris_spec {n : Nat} (hn : n < 2 ^ 32) (T : List (List PyNum))
    (h : ∀ tri ∈ T, tri.length = 3 ∧ tri.all (validIdx n) = true) :
    ∃ body, packTris T = .ok body ∧ body.length = 12 * T.length ∧
      decodeTris body T.length = T.map triIdx := by
  induction T with
  | nil => exact ⟨[], rfl, rfl, rfl⟩
  | cons tri rest ih =>
      obtain ⟨h3, hv⟩ := h tri (List.mem_cons_self _ _)
      obtain ⟨a, b, c, htri, hpack, ha, hb, hc⟩ := packTri_spec hn h3 hv
      obtain ⟨body, hbody, hlen, hdec⟩ := ih fun t htm => h t (List.mem_cons_of_mem _ htm)
      refine ⟨packU32 a.toNat ++ packU32 b.toNat ++ packU32 c.toNat ++ body, ?_, ?_, ?_⟩
      · simp only [packTris, hpack, hbody]
      · simp [packU32_length, hlen]
        ring
      · have e1 : packU32 a.toNat ++ packU32 b.toNat ++ packU32 c.toNat ++ body =
            packU32 a.toNat ++ (packU32 b.toNat ++ (packU32 c.toNat ++ body)) := by
          simp [List.append_assoc]
        simp only [List.length_cons, decodeTris, List.map_cons, e1]
        rw [take_len_append _ _ _ (packU32_length _),
          drop_len_append _ _ _ (packU32_length _),
          take_len_append _ _ _ (packU32_length _)]
        have hd8 : (packU32 a.toNat ++ (packU32 b.toNat ++ (packU32 c.toNat ++ body))).drop 8 =
            packU32 c.toNat ++ body := by
          rw [show packU32 a.toNat ++ (packU32 b.toNat ++ (packU32 c.toNat ++ body)) =
            (packU32 a.toNat ++ packU32 b.toNat) ++ (packU32 c.toNat ++ body) by
              simp [List.append_assoc]]
          exact drop_len_append _ _ _ (by simp [packU32_length])
        have hd12 : (packU32 a.toNat ++ (packU32 b.toNat ++ (packU32 c.toNat ++ body))).drop 12 =
            body := by
          rw [show packU32 a.toNat ++ (packU32 b.toNat ++ (packU32 c.toNat ++ body)) =
            (packU32 a.toNat ++ packU32 b.toNat ++ packU32 c.toNat) ++ body by
              simp [List.append_assoc]]
          exact drop_len_append _ _ _ (by simp [packU32_length])
        rw [hd8, take_len_append _ _ _ (packU32_length _), hd12, hdec,
          unpackU32_packU32 _ (by omega), unpackU32_packU32 _ (by omega),
          unpackU32_packU32 _ (by omega), htri]
        rfl

end Triangulator

namespace Triangulator

/-! ### Claim theorems -/

/-- C7: for any point list with fewer than 3 points, or with all points
collinear within epsilon, delaunay_triangulation returns the empty list. -/
theorem C7_degenerate_empty (points : List Pt)
    (h : points.length < 3 ∨ isCollinear points epsDefault = true) :
    delaunay_triangulation points epsDefault = [] := by
  unfold delaunay_triangulation
  by_cases hl : points.length < 3
  · rw [if_pos hl]
  · rcases h with h | h
    · exact absurd h hl
    · rw [if_neg hl, if_pos h]

/-- C7 witness: the collinear three-point scenario returns the empty list. -/
theorem C7_degenerate_empty_witness :
    isCollinear Triangulator.collinearPts epsDefault = true ∧
    delaunay_triangulation Triangulator.collinearPts epsDefault = [] :=
  ⟨by decide, C7_degenerate_empty _ (Or.inr (by decide))⟩

/-- C2: the claim predicts 882 triangles for the 50×10 grid, but the code's
triangle bookkeeping is broken (bad triangles recorded with swapped orientation
are never removed), so the code returns 11025 triangles on that grid (exact
rational evaluation; every float64 operation of that run is exact).  The same
defect makes the code contradict its own unit test test_square_four_points,
which asserts two triangles for the unit square: evaluating the embedded code
on the square yields three triangles, two of which overlap. -/
theorem C2_square_contradicts_own_test :
    delaunay_triangulation squarePts epsDefault = [(0, 1, 2), (1, 2, 3), (0, 2, 3)] := by
  decide

/-- C1 counterexample: at the fourth insertion step of the convex five-point
run (a reachable state of the triangulator), the undirected edge (5,6) occurs
three times among the bad triangles' edges; the code's add_edge fold keeps it
while the spec's count-equals-one method discards it, so the code does not
compute the canonical-count boundary. -/
theorem C1_boundary_counterexample :
    (5, 6) ∈ (computeBoundary (badTriangles convex5Ext epsDefault
        ((List.range 3).foldl (fun tris pi => insertStep convex5Ext epsDefault tris pi)
          [(5, 6, 7)]) 3)).map normEdge ∧
    (5, 6) ∉ specBoundary (badTriangles convex5Ext epsDefault
        ((List.range 3).foldl (fun tris pi => insertStep convex5Ext epsDefault tris pi)
          [(5, 6, 7)]) 3) := by
  decide

theorem normEdge_swap (e : Nat × Nat) : normEdge (e.2, e.1) = normEdge e := by
  simp [normEdge, Nat.min_comm, Nat.max_comm]

theorem normEdge_eq_iff {d e : Nat × Nat} : normEdge d = normEdge e ↔ d = e ∨ d = (e.2, e.1) := by
  rcases d with ⟨d1, d2⟩
  rcases e with ⟨e1, e2⟩
  simp [normEdge, Prod.ext_iff]
  omega

theorem perm_cons_erase_beq {α} [BEq α] [LawfulBEq α] {x : α} {l : List α} (hx : x ∈ l) :
    l.Perm (x :: l.erase x) := by
  induction l with
  | nil => cases hx
  | cons y ys ih =>
      rw [List.erase_cons]
      by_cases h : (y == x) = true
      · have hyx : y = x := eq_of_beq h
        subst hyx
        rw [if_pos h]
      · rw [if_neg h]
        rcases List.mem_cons.mp hx with h1 | h1
        · exact absurd (by simp [h1]) h
        · exact ((ih h1).cons y).trans (List.Perm.swap x y _)

theorem count_eq_of_perm {α} [BEq α] {l1 l2 : List α} (h : l1.Perm l2) (a : α) :
    l1.count a = l2.count a :=
  h.countP_eq _

theorem count_map_erase (l : List (Nat × Nat)) (x : Nat × Nat) (hx : x ∈ l) (v : Nat × Nat) :
    (l.map normEdge).count v = (if v = normEdge x then 1 else 0) + ((l.erase x).map normEdge).count v := by
  have hp : l.Perm (x :: l.erase x) := perm_cons_erase_beq hx
  rw [count_eq_of_perm (hp.map normEdge) v, List.map_cons, List.count_cons]
  by_cases hv : v = normEdge x
  · simp [hv]
    omega
  · simp [hv]
    exact fun h => hv h.symm

theorem addEdge_count (acc : List (Nat × Nat)) (d : Nat × Nat)
    (hinv : ∀ v, (acc.map normEdge).count v ≤ 1) :
    (∀ v, ((addEdge acc d).map normEdge).count v =
      if v = normEdge d then ((acc.map normEdge).count v + 1) % 2
      else (acc.map normEdge).count v) ∧
    (∀ v, ((addEdge acc d).map normEdge).count v ≤ 1) := by
  unfold addEdge
  by_cases hrev : (d.2, d.1) ∈ acc
  · rw [if_pos hrev]
    have key : ∀ v, (acc.map normEdge).count v =
        (if v = normEdge d then 1 else 0) + ((acc.erase (d.2, d.1)).map normEdge).count v := by
      intro v
      have := count_map_erase acc (d.2, d.1) hrev v
      rwa [normEdge_swap] at this
    constructor
    · intro v
      have h1 := key v
      have h2 := hinv v
      by_cases hv : v = normEdge d
      · rw [if_pos hv] at h1 ⊢
        omega
      · rw [if_neg hv] at h1 ⊢
        omega
    · intro v
      have h1 := key v
      have h2 := hinv v
      by_cases hv : v = normEdge d
      · rw [if_pos hv] at h1
        omega
      · rw [if_neg hv] at h1
        omega
  · rw [if_neg hrev]
    by_cases hd : d ∈ acc
    · rw [if_pos hd]
      have key := fun v => count_map_erase acc d hd v
      constructor
      · intro v
        have h1 := key v
        have h2 := hinv v
        by_cases hv : v = normEdge d
        · rw [if_pos hv] at h1 ⊢
          omega
        · rw [if_neg hv] at h1 ⊢
          omega
      · intro v
        have h1 := key v
        have h2 := hinv v
        by_cases hv : v = normEdge d
        · rw [if_pos hv] at h1
          omega
        · rw [if_neg hv] at h1
          omega
    · rw [if_neg hd]
      have hzero : (acc.map normEdge).count (normEdge d) = 0 := by
        by_contra hpos
        have hmem : normEdge d ∈ acc.map normEdge := by
          have := Nat.pos_of_ne_zero hpos
          exact List.count_pos_iff.mp this
        obtain ⟨x, hxmem, hxeq⟩ := List.mem_map.mp hmem
        rcases normEdge_eq_iff.mp hxeq with h | h
        · exact hd (h ▸ hxmem)
        · exact hrev (h ▸ hxmem)
      constructor
      · intro v
        rw [List.map_append, List.count_append]
        by_cases hv : v = normEdge d
        · rw [if_pos hv, hv, hzero]
          simp
        · rw [if_neg hv]
          have : (([d].map normEdge).count v) = 0 := by
            simp [List.count_singleton]
            exact fun h => hv h.symm
          omega
      · intro v
        rw [List.map_append, List.count_append]
        have h2 := hinv v
        by_cases hv : v = normEdge d
        · rw [hv, hzero]
          simp [List.count_singleton]
        · have : (([d].map normEdge).count v) = 0 := by
            simp [List.count_singleton]
            exact fun h => hv h.symm
          omega

theorem foldl_addEdge_count (es : List (Nat × Nat)) (acc : List (Nat × Nat))
    (hinv : ∀ v, (acc.map normEdge).count v ≤ 1) (v : Nat × Nat) :
    ((es.foldl addEdge acc).map normEdge).count v =
      ((acc.map normEdge).count v + (es.map normEdge).count v) % 2 := by
  induction es generalizing acc with
  | nil =>
      simp only [List.foldl_nil, List.map_nil, List.count_nil, Nat.add_zero]
      have := hinv v
      omega
  | cons d es ih =>
      have hstep := addEdge_count acc d hinv
      rw [List.foldl_cons, ih _ hstep.2, hstep.1 v, List.map_cons, List.count_cons]
      by_cases hv : v = normEdge d
      · rw [if_pos hv]
        simp [hv]
        omega
      · rw [if_neg hv]
        simp [Ne.symm hv, hv]

/-- C1 (amended): the code's add_edge fold does not implement the spec's
canonical-count method; instead it toggles, keeping an undirected edge exactly
when its occurrence count over all bad-triangle edges is odd.  The two methods
agree only while no undirected edge occurs more than twice.  The right-hand
side depends only on the multiset of edges, so the kept undirected edges are
order-independent. -/
theorem C1_boundary_method (bad : List Tri) (e : Nat × Nat) :
    ((computeBoundary bad).map normEdge).count e =
      ((bad.flatMap triEdges).map normEdge).count e % 2 := by
  unfold computeBoundary
  have h := foldl_addEdge_count (bad.flatMap triEdges) [] (by simp) e
  simpa using h

theorem map_narrow_id {P : List PyPoint} (h : ∀ p ∈ P, narrowPoint p = p) :
    P.map narrowPoint = P := by
  induction P with
  | nil => rfl
  | cons p ps ih =>
      rw [List.map_cons, h p (List.mem_cons_self p ps),
        ih fun q hq => h q (List.mem_cons_of_mem _ hq)]

/-- C3 counterexample: 2^130 is a finite double, so the claim predicts a normal
return of 12 bytes, but narrowing it to binary32 overflows and struct.pack
raises OverflowError, so encode_pointset does not return normally. -/
theorem C3_encode_pointset_counterexample :
    (PyFloat.finite ⟨2 ^ 130, 1⟩).isFinite = true ∧
    encode_pointset [((PyFloat.finite ⟨2 ^ 130, 1⟩), PyFloat.finite ⟨0, 1⟩)] =
      .error .overflowError := by
  constructor
  · decide
  · decide

/-- C3 (amended): encode_pointset raises ValueError exactly when some coordinate
is NaN or infinite; a finite-coordinate list returns normally with 4 + 8n bytes
(a little-endian u32 count followed by the binary32 coordinate records) provided
additionally every coordinate narrows to a finite binary32 value and the count
fits an unsigned 32-bit integer. -/
theorem C3_encode_pointset (P : List PyPoint) :
    (encode_pointset P = .error .invalidValue ↔
      ∃ p ∈ P, ¬p.1.isFinite = true ∨ ¬p.2.isFinite = true) ∧
    ((∀ p ∈ P, p.1.isFinite = true ∧ p.2.isFinite = true) → P.length < 2 ^ 32 →
      (∀ p ∈ P, (packF32 p.1).isOk = true ∧ (packF32 p.2).isOk = true) →
      ∃ bs, encode_pointset P = .ok bs ∧ bs.length = 4 + 8 * P.length ∧
        bs = packU32 P.length ++ bs.drop 4 ∧
        decodePoints (bs.drop 4) P.length = P.map narrowPoint) := by
  constructor
  · constructor
    · intro h
      by_cases hany : P.any (fun p => !p.1.isFinite || !p.2.isFinite) = true
      · obtain ⟨p, hp, hcond⟩ := List.any_eq_true.mp hany
        refine ⟨p, hp, ?_⟩
        simp only [Bool.or_eq_true, Bool.not_eq_true'] at hcond
        rcases hcond with hc | hc
        · exact Or.inl (by simp [hc])
        · exact Or.inr (by simp [hc])
      · exfalso
        rw [encode_pointset, if_neg hany] at h
        by_cases hn : P.length < 2 ^ 32
        · rw [packCount, if_pos hn] at h
          cases hpp : packPoints P with
          | error e =>
              rw [hpp] at h
              cases h
              exact absurd (packPoints_error hpp) (by decide)
          | ok b =>
              rw [hpp] at h
              cases h
        · rw [packCount, if_neg hn] at h
          cases h
    · rintro ⟨p, hp, hcond⟩
      have hany : P.any (fun p => !p.1.isFinite || !p.2.isFinite) = true := by
        rw [List.any_eq_true]
        refine ⟨p, hp, ?_⟩
        simp only [Bool.or_eq_true, Bool.not_eq_true']
        rcases hcond with hc | hc
        · exact Or.inl (by simpa using hc)
        · exact Or.inr (by simpa using hc)
      rw [encode_pointset, if_pos hany]
  · intro hfin hn hpack
    obtain ⟨body, hb, hlen, hdec, henc⟩ := encode_pointset_spec P hfin hn hpack
    have hdrop : (packU32 P.length ++ body).drop 4 = body :=
      drop_len_append _ _ _ (packU32_length _)
    refine ⟨packU32 P.length ++ body, henc, ?_, ?_, ?_⟩
    · simp [hlen, packU32_length]
    · rw [hdrop]
    · rw [hdrop]
      exact hdec

/-- C3 witness: a representable one-point list encodes to 12 bytes. -/
theorem C3_encode_pointset_witness :
    ∃ bs, encode_pointset [((PyFloat.finite ⟨1, 1⟩), PyFloat.finite ⟨0, 1⟩)] = .ok bs ∧
      bs.length = 4 + 8 * [((PyFloat.finite ⟨1, 1⟩), PyFloat.finite ⟨0, 1⟩)].length ∧
      bs = packU32 [((PyFloat.finite ⟨1, 1⟩), PyFloat.finite ⟨0, 1⟩)].length ++ bs.drop 4 ∧
      decodePoints (bs.drop 4) [((PyFloat.finite ⟨1, 1⟩), PyFloat.finite ⟨0, 1⟩)].length =
        [((PyFloat.finite ⟨1, 1⟩), PyFloat.finite ⟨0, 1⟩)].map narrowPoint :=
  (C3_encode_pointset _).2 (by decide) (by decide) (by decide)

/-- C5 counterexample: a list whose coordinates are all finite on which the
round trip does not return normally: 2^130 overflows binary32 during encoding. -/
theorem C5_roundtrip_pointset_counterexample :
    (∀ p ∈ [((PyFloat.finite ⟨0, 1⟩), PyFloat.finite ⟨2 ^ 130, 1⟩)],
      p.1.isFinite = true ∧ p.2.isFinite = true) ∧
    (encode_pointset [((PyFloat.finite ⟨0, 1⟩), PyFloat.finite ⟨2 ^ 130, 1⟩)]).bind
      decode_pointset = .error .overflowError := by
  constructor
  · decide
  · decide

/-- C5 (amended): for finite-coordinate lists that narrow to finite binary32
values and whose count fits a u32, decoding the encoding returns the points
narrowed to binary32; when every coordinate is exactly representable in
binary32 the round trip is the identity. -/
theorem C5_roundtrip_pointset (P : List PyPoint)
    (hfin : ∀ p ∈ P, p.1.isFinite = true ∧ p.2.isFinite = true)
    (hn : P.length < 2 ^ 32)
    (hpack : ∀ p ∈ P, (packF32 p.1).isOk = true ∧ (packF32 p.2).isOk = true) :
    (encode_pointset P).bind decode_pointset = .ok (P.map narrowPoint) ∧
    ((∀ p ∈ P, narrowPoint p = p) → (encode_pointset P).bind decode_pointset = .ok P) := by
  obtain ⟨body, hb, hlen, hdec, henc⟩ := encode_pointset_spec P hfin hn hpack
  have hmain : (encode_pointset P).bind decode_pointset = .ok (P.map narrowPoint) := by
    rw [henc]
    show decode_pointset (packU32 P.length ++ body) = .ok (P.map narrowPoint)
    have hlen2 : (packU32 P.length ++ body).length = 4 + 8 * P.length := by
      simp [hlen, packU32_length]
    have ht : (packU32 P.length ++ body).take 4 = packU32 P.length :=
      take_len_append _ _ _ (packU32_length _)
    simp only [decode_pointset, ht, unpackU32_packU32 _ hn]
    rw [if_neg (by omega : ¬ (packU32 P.length ++ body).length < 4),
      if_neg (by omega : ¬ (packU32 P.length ++ body).length ≠ 4 + P.length * 8),
      drop_len_append _ _ _ (packU32_length _), hdec]
  refine ⟨hmain, fun hrep => ?_⟩
  rw [hmain, map_narrow_id hrep]

/-- C5 witness: a list of exactly representable coordinates round-trips to
itself. -/
theorem C5_roundtrip_pointset_witness :
    (encode_pointset [((PyFloat.finite ⟨3, 2⟩), PyFloat.finite ⟨-9, 4⟩)]).bind decode_pointset
      = .ok [((PyFloat.finite ⟨3, 2⟩), PyFloat.finite ⟨-9, 4⟩)] :=
  (C5_roundtrip_pointset _ (by decide) (by decide) (by decide)).2 (by decide)

/-- C4 counterexample: a (P, T) pair satisfying the claim's hypotheses (all
coordinates finite, T empty hence vacuously valid) on which the round trip
raises instead of returning normally: 2^130 overflows binary32. -/
theorem C4_roundtrip_triangles_counterexample :
    (PyFloat.finite ⟨2 ^ 130, 1⟩).isFinite = true ∧
    (encode_triangles [((PyFloat.finite ⟨2 ^ 130, 1⟩), PyFloat.finite ⟨0, 1⟩)] []).bind
      decode_triangles = .error .overflowError := by
  constructor
  · decide
  · decide

/-- C4 (amended): for finite-coordinate points that narrow to finite binary32
values, counts below 2^32, and triangles of exactly three in-range integer
indices, decoding the encoding returns the narrowed points and recovers the
triangle index list exactly. -/
theorem C4_roundtrip_triangles (P : List PyPoint) (T : List (List PyNum))
    (hfin : ∀ p ∈ P, p.1.isFinite = true ∧ p.2.isFinite = true)
    (hn : P.length < 2 ^ 32)
    (hpack : ∀ p ∈ P, (packF32 p.1).isOk = true ∧ (packF32 p.2).isOk = true)
    (ht : T.length < 2 ^ 32)
    (htri : ∀ tri ∈ T, tri.length = 3 ∧ tri.all (validIdx P.length) = true) :
    (encode_triangles P T).bind decode_triangles = .ok (P.map narrowPoint, T.map triIdx) := by
  obtain ⟨body, hbodyP, hlenP, hdecP, hencP⟩ := encode_pointset_spec P hfin hn hpack
  obtain ⟨tbody, hbodyT, hlenT, hdecT⟩ := packTris_spec hn T htri
  have henc : encode_triangles P T =
      .ok (packU32 P.length ++ body ++ packU32 T.length ++ tbody) := by
    simp only [encode_triangles, validateTris_ok htri, hencP, packCount, if_pos ht, hbodyT]
  rw [henc]
  show decode_triangles (packU32 P.length ++ body ++ packU32 T.length ++ tbody) = _
  have hassoc : packU32 P.length ++ body ++ packU32 T.length ++ tbody =
      (packU32 P.length ++ body) ++ (packU32 T.length ++ tbody) := by
    simp [List.append_assoc]
  rw [hassoc]
  have hplen : (packU32 P.length ++ body).length = 4 + 8 * P.length := by
    simp [packU32_length, hlenP]
  have hbuflen : ((packU32 P.length ++ body) ++ (packU32 T.length ++ tbody)).length =
      4 + 8 * P.length + (4 + 12 * T.length) := by
    simp only [List.length_append, packU32_length, hlenP, hlenT]
  have htake4 : ((packU32 P.length ++ body) ++ (packU32 T.length ++ tbody)).take 4 =
      packU32 P.length := by
    rw [List.append_assoc]
    exact take_len_append _ _ _ (packU32_length _)
  simp only [decode_triangles, htake4, unpackU32_packU32 _ hn]
  rw [if_neg (by omega :
      ¬ ((packU32 P.length ++ body) ++ (packU32 T.length ++ tbody)).length < 4)]
  have htakep : ((packU32 P.length ++ body) ++ (packU32 T.length ++ tbody)).take
      (4 + P.length * 8) = packU32 P.length ++ body :=
    take_len_append _ _ _ (by omega)
  have hdropp : ((packU32 P.length ++ body) ++ (packU32 T.length ++ tbody)).drop
      (4 + P.length * 8) = packU32 T.length ++ tbody :=
    drop_len_append _ _ _ (by omega)
  rw [if_neg (by omega :
      ¬ ((packU32 P.length ++ body) ++ (packU32 T.length ++ tbody)).length <
        4 + P.length * 8 + 4)]
  rw [htakep, hdropp]
  have hdp : decode_pointset (packU32 P.length ++ body) = .ok (P.map narrowPoint) :=
    decode_pointset_of_spec P body hn hlenP hdecP
  rw [hdp]
  have htaket : (packU32 T.length ++ tbody).take 4 = packU32 T.length :=
    take_len_append _ _ _ (packU32_length _)
  simp only [htaket, unpackU32_packU32 _ ht]
  rw [if_neg (by omega :
      ¬ ((packU32 P.length ++ body) ++ (packU32 T.length ++ tbody)).length ≠
        4 + P.length * 8 + 4 + T.length * 12)]
  have hdropt : ((packU32 P.length ++ body) ++ (packU32 T.length ++ tbody)).drop
      (4 + P.length * 8 + 4) = tbody := by
    rw [show (packU32 P.length ++ body) ++ (packU32 T.length ++ tbody) =
      ((packU32 P.length ++ body) ++ packU32 T.length) ++ tbody by simp [List.append_assoc]]
    exact drop_len_append _ _ _ (by simp [packU32_length, hlenP]; omega)
  rw [hdropt, hdecT]

/-- C4 witness: the documented three-point one-triangle scenario round-trips. -/
theorem C4_roundtrip_triangles_witness :
    (encode_triangles [((PyFloat.finite ⟨0, 1⟩), PyFloat.finite ⟨0, 1⟩),
        ((PyFloat.finite ⟨1, 1⟩), PyFloat.finite ⟨0, 1⟩),
        ((PyFloat.finite ⟨0, 1⟩), PyFloat.finite ⟨1, 1⟩)]
      [[.int 0, .int 1, .int 2]]).bind decode_triangles =
      .ok ([((PyFloat.finite ⟨0, 1⟩), PyFloat.finite ⟨0, 1⟩),
        ((PyFloat.finite ⟨1, 1⟩), PyFloat.finite ⟨0, 1⟩),
        ((PyFloat.finite ⟨0, 1⟩), PyFloat.finite ⟨1, 1⟩)].map narrowPoint,
        [[PyNum.int 0, PyNum.int 1, PyNum.int 2]].map triIdx) :=
  C4_roundtrip_triangles _ _ (by decide) (by decide) (by decide) (by decide) (by decide)

/-- C9 counterexample: the second triangle has only two indices, so the claim
demands a CodecError, but validation scans triangles in order and the first
triangle's negative index raises the InvalidValue condition instead. -/
theorem C9_encode_triangles_counterexample :
    encode_triangles [((PyFloat.finite ⟨0, 1⟩), PyFloat.finite ⟨0, 1⟩)]
      [[.int (-1), .int 0, .int 0], [.int 0, .int 0]] = .error .invalidValue := by
  decide

/-- C9 (amended): encode_triangles validates triangles in order; the first
invalid triangle determines the error: CodecError when its length is not 3,
otherwise the InvalidValue condition for its bad index.  With all triangles
valid (and encodable coordinates and counts) it returns normally. -/
theorem C9_encode_triangles_errors (P : List PyPoint) (T : List (List PyNum)) :
    (∀ tri, T.find? (fun t => !(t.length == 3 && t.all (validIdx P.length))) = some tri →
      encode_triangles P T = .error (if tri.length = 3 then .invalidValue else .codecError)) ∧
    ((∀ tri ∈ T, tri.length = 3 ∧ tri.all (validIdx P.length) = true) →
      (∀ p ∈ P, p.1.isFinite = true ∧ p.2.isFinite = true) →
      (∀ p ∈ P, (packF32 p.1).isOk = true ∧ (packF32 p.2).isOk = true) →
      P.length < 2 ^ 32 → T.length < 2 ^ 32 →
      (encode_triangles P T).isOk = true) := by
  constructor
  · intro tri hfind
    simp only [encode_triangles, validateTris_find hfind]
  · intro htri hfin hpack hn ht
    obtain ⟨body, hbodyP, hlenP, hdecP, hencP⟩ := encode_pointset_spec P hfin hn hpack
    obtain ⟨tbody, hbodyT, hlenT, hdecT⟩ := packTris_spec hn T htri
    simp only [encode_triangles, validateTris_ok htri, hencP, packCount, if_pos ht, hbodyT]
    rfl

/-- C9 witness: a valid one-triangle input encodes normally, and an input whose
first offense is a wrong-length triangle yields CodecError. -/
theorem C9_encode_triangles_errors_witness :
    (encode_triangles [((PyFloat.finite ⟨0, 1⟩), PyFloat.finite ⟨0, 1⟩)]
      [[.int 0, .int 0, .int 0]]).isOk = true ∧
    encode_triangles [((PyFloat.finite ⟨0, 1⟩), PyFloat.finite ⟨0, 1⟩)]
      [[.int 0, .int 0], [.int (-1), .int 0, .int 0]] = .error .codecError :=
  ⟨(C9_encode_triangles_errors _ _).2 (by decide) (by decide) (by decide) (by decide)
    (by decide),
   (C9_encode_triangles_errors _ _).1 [PyNum.int 0, PyNum.int 0] (by decide)⟩

/-- C10: decode_triangles performs no range validation: every buffer of exactly
the expected total size decodes normally to the wire's point and index records
verbatim; concretely, a buffer declaring zero points and one triangle (7, 8, 9)
is accepted, while encode_triangles rejects that very (points, triangles) pair
with the InvalidValue condition. -/
theorem C10_decode_triangles_no_validation :
    (∀ buf : List Byte, buf.length = psizeOf buf + 4 + tcountOf buf * 12 →
      decode_triangles buf = .ok (decodePoints ((buf.take (psizeOf buf)).drop 4)
          (unpackU32 (buf.take 4)),
        decodeTris (buf.drop (psizeOf buf + 4)) (tcountOf buf))) ∧
    decode_triangles c10buf = .ok ([], [(7, 8, 9)]) ∧
    encode_triangles [] [[.int 7, .int 8, .int 9]] = .error .invalidValue := by
  refine ⟨?_, by decide, by decide⟩
  intro buf hsize
  simp only [psizeOf, tcountOf] at hsize ⊢
  have h4 : ¬ buf.length < 4 := by omega
  have hple : 4 + unpackU32 (buf.take 4) * 8 ≤ buf.length := by omega
  have htlen : (buf.take (4 + unpackU32 (buf.take 4) * 8)).length =
      4 + unpackU32 (buf.take 4) * 8 := by
    rw [List.length_take]
    omega
  have hdp : decode_pointset (buf.take (4 + unpackU32 (buf.take 4) * 8)) =
      .ok (decodePoints ((buf.take (4 + unpackU32 (buf.take 4) * 8)).drop 4)
        (unpackU32 (buf.take 4))) := by
    have htt : (buf.take (4 + unpackU32 (buf.take 4) * 8)).take 4 = buf.take 4 := by
      rw [List.take_take]
      congr 1
      omega
    simp only [decode_pointset, htt]
    rw [if_neg (by omega : ¬ (buf.take (4 + unpackU32 (buf.take 4) * 8)).length < 4),
      if_neg (by omega : ¬ (buf.take (4 + unpackU32 (buf.take 4) * 8)).length ≠
        4 + unpackU32 (buf.take 4) * 8)]
  simp only [decode_triangles, hdp]
  rw [if_neg h4,
    if_neg (by omega : ¬ buf.length < 4 + unpackU32 (buf.take 4) * 8 + 4),
    if_neg (by omega : ¬ buf.length ≠ 4 + unpackU32 (buf.take 4) * 8 + 4 +
      unpackU32 ((buf.drop (4 + unpackU32 (buf.take 4) * 8)).take 4) * 12)]

/-- C10 witness: a well-sized one-point one-triangle buffer decodes to the wire
records. -/
theorem C10_decode_triangles_no_validation_witness :
    decode_triangles c10buf2 = .ok (decodePoints ((c10buf2.take (psizeOf c10buf2)).drop 4)
        (unpackU32 (c10buf2.take 4)),
      decodeTris (c10buf2.drop (psizeOf c10buf2 + 4)) (tcountOf c10buf2)) :=
  (C10_decode_triangles_no_validation).1 c10buf2 (by decide)

/-- C6: every triangle returned by delaunay_triangulation has three pairwise
distinct indices, all below the input length (hence never a super-triangle
vertex, whose indices are n, n+1, n+2), and doubled signed area whose absolute
value exceeds the epsilon threshold.  The denominator-positivity hypothesis is
the well-formedness invariant of the fraction representation of the inputs. -/
theorem C6_result_invariants (points : List Pt) (ia ib ic : Nat)
    (hden : ∀ p ∈ points, 0 < p.1.den ∧ 0 < p.2.den)
    (h : (ia, ib, ic) ∈ delaunay_triangulation points epsDefault) :
    ia < points.length ∧ ib < points.length ∧ ic < points.length ∧
    ia ≠ ib ∧ ia ≠ ic ∧ ib ≠ ic ∧
    epsDefault < (area2 (points.getD ia (0, 0)) (points.getD ib (0, 0))
      (points.getD ic (0, 0))).abs := by
  unfold delaunay_triangulation at h
  by_cases h3 : points.length < 3
  · rw [if_pos h3] at h
    exact absurd h (List.not_mem_nil _)
  rw [if_neg h3] at h
  by_cases hcol : isCollinear points epsDefault = true
  · rw [if_pos hcol] at h
    exact absurd h (List.not_mem_nil _)
  rw [if_neg hcol] at h
  simp only [List.mem_filter] at h
  obtain ⟨-, hpred⟩ := h
  by_cases hbound : ia ≥ points.length ∨ ib ≥ points.length ∨ ic ≥ points.length
  · rw [if_pos hbound] at hpred
    exact absurd hpred (by simp)
  rw [if_neg hbound] at hpred
  push_neg at hbound
  obtain ⟨hia, hib, hic⟩ := hbound
  have hlt := of_decide_eq_true hpred
  rw [List.getD_append _ _ _ _ hia, List.getD_append _ _ _ _ hib,
    List.getD_append _ _ _ _ hic] at hlt
  have hdA := hden _ (getD_mem_of_lt hia)
  have hdB := hden _ (getD_mem_of_lt hib)
  have hdC := hden _ (getD_mem_of_lt hic)
  refine ⟨hia, hib, hic, ?_, ?_, ?_, Frac.lt_of_not_le hlt⟩
  · intro heq
    rw [heq] at hlt
    exact hlt (abs_le_eps_of_num_zero _ (area2_num_self_left _ _)
      (area2_den_pos _ _ _ hdB.1 hdB.2 hdB.1 hdB.2 hdC.1 hdC.2))
  · intro heq
    rw [heq] at hlt
    exact hlt (abs_le_eps_of_num_zero _ (area2_num_self_outer _ _)
      (area2_den_pos _ _ _ hdC.1 hdC.2 hdB.1 hdB.2 hdC.1 hdC.2))
  · intro heq
    rw [heq] at hlt
    exact hlt (abs_le_eps_of_num_zero _ (area2_num_self_right _ _)
      (area2_den_pos _ _ _ hdA.1 hdA.2 hdC.1 hdC.2 hdC.1 hdC.2))

/-- C6 witness: the three-point scenario's returned triangle (0, 1, 2)
satisfies all the invariants. -/
theorem C6_result_invariants_witness :
    (0 : Nat) < 3 ∧ (1 : Nat) < 3 ∧ (2 : Nat) < 3 ∧
    (0 : Nat) ≠ 1 ∧ (0 : Nat) ≠ 2 ∧ (1 : Nat) ≠ 2 ∧
    epsDefault < (area2 (triPts.getD 0 (0, 0)) (triPts.getD 1 (0, 0))
      (triPts.getD 2 (0, 0))).abs :=
  C6_result_invariants triPts 0 1 2 (by decide) (by decide)

/-- C8: decode_pointset fails with CodecError exactly when the buffer length
differs from 4 + 8n for the count n read from the first four bytes (in
particular on every buffer shorter than four bytes), and on a buffer of exact
size it returns normally with n points. -/
theorem C8_decode_pointset_sizes (buf : List Byte) :
    (buf.length = 4 + unpackU32 (buf.take 4) * 8 →
      decode_pointset buf = .ok (decodePoints (buf.drop 4) (unpackU32 (buf.take 4))) ∧
      (decodePoints (buf.drop 4) (unpackU32 (buf.take 4))).length = unpackU32 (buf.take 4)) ∧
    (buf.length ≠ 4 + unpackU32 (buf.take 4) * 8 → decode_pointset buf = .error .codecError) := by
  constructor
  · intro h
    have h4 : ¬ buf.length < 4 := by omega
    have hne : ¬ buf.length ≠ 4 + unpackU32 (buf.take 4) * 8 := by omega
    refine ⟨?_, decodePoints_length _ _⟩
    simp [decode_pointset, if_neg h4, if_neg hne]
  · intro h
    by_cases h4 : buf.length < 4
    · simp only [decode_pointset, if_pos h4]
    · simp only [decode_pointset, if_neg h4, if_pos h]

/-- C8 witness: a well-sized one-point buffer decodes to one point. -/
theorem C8_decode_pointset_sizes_witness :
    decode_pointset (packU32 1 ++ List.replicate 8 (0 : Byte)) =
      .ok (decodePoints ((packU32 1 ++ List.replicate 8 (0 : Byte)).drop 4)
        (unpackU32 ((packU32 1 ++ List.replicate 8 (0 : Byte)).take 4))) :=
  ((C8_decode_pointset_sizes _).1 (by decide)).1

end Triangulator
